import Mathlib

/-!
Verification of the Skladito warehouse API core (src/lan/backend/server.js,
with the earlier no-auth variant in src/unnamed/part_000).

The JavaScript handlers are shallowly embedded as pure Lean functions over
explicit record-store state (lists of records).  MongoDB operations are
rendered as list operations with the same semantics:
`findOne`  -> `List.find?` (first match),
`find().toArray()` -> the whole list / `List.filter`,
`updateOne` -> `setFirst` (rewrite the first matching record),
`deleteOne` -> `List.eraseP` (remove the first matching record),
`deleteMany` -> `List.filter` (remove every matching record),
`countDocuments` -> `List.countP`,
`insertOne` -> append.
JavaScript `undefined`/`null` field values are rendered as `Option`;
a JSON body key that may be absent (`!== undefined` presence checks) is an
outer `Option` around the (possibly null, hence inner `Option`) value.
JavaScript truthiness tests on strings (`if (req.body.parent)`,
`x || fallback`) treat the empty string like `null`; the helpers
`presentString` and `stringOrElse` reproduce this.
The recursion of `addChildren` in `getAccessibleContainerIds` is embedded
with an explicit fuel parameter bounding the recursion depth (the JS call
stack); `none` means the recursion depth exceeded the fuel, which models
the unbounded recursion the source performs on a cyclic parent graph.
-/

namespace Skladito

/-- A `containers` collection record (server.js POST /containers shape). -/
structure Container where
  id : String
  name : Option String
  number : Option String
  photo : Option String
  parent : Option String
  ownerId : Option String
  created : String
  deriving DecidableEq, Repr

/-- A `containerAccess` collection record. -/
structure ContainerAccess where
  containerId : String
  userId : String
  deriving DecidableEq, Repr

/-- An `items` collection record. -/
structure Item where
  id : String
  name : Option String
  quantity : Option Int
  minQuantity : Option Int
  category : Option String
  photo : Option String
  container : Option String
  created : String
  deriving DecidableEq, Repr

/-- A `categories` collection record. -/
structure Category where
  id : String
  name : Option String
  icon : String
  order : Int
  deriving DecidableEq, Repr

/-- A `users` collection record. -/
structure User where
  id : String
  name : Option String
  code : Option String
  isAdmin : Bool
  isActive : Bool
  inviteToken : Option String
  inviteExpires : Option Nat
  deriving DecidableEq, Repr

/-- The whole record store. -/
structure State where
  users : List User
  containers : List Container
  items : List Item
  categories : List Category
  containerAccess : List ContainerAccess
  deriving DecidableEq, Repr

/-- JS truthiness of an optional string: `undefined`, `null` and `""` are
falsy.  `x || null` therefore maps `some ""` to `none`. -/
def presentString : Option String → Option String
  | some s => if s = "" then none else some s
  | none => none

/-- JS `x || fallback` on an optional string field. -/
def stringOrElse (x : Option String) (fallback : String) : String :=
  match x with
  | some s => if s = "" then fallback else s
  | none => fallback

/-- Mongo `updateOne`: rewrite the first record matching the filter. -/
def setFirst (p : α → Bool) (f : α → α) : List α → List α
  | [] => []
  | x :: xs => if p x then f x :: xs else x :: setFirst p f xs

/-- The expiry test `user.inviteExpires && new Date(user.inviteExpires) < new Date()`. -/
def inviteExpired (inviteExpires : Option Nat) (now : Nat) : Bool :=
  match inviteExpires with
  | some e => decide (e < now)
  | none => false

/-- The user object with the `code` (and Mongo `_id`) fields removed, as
built by `const { code: _, ...safeUser } = user` in every user-returning
handler.  By construction this record type has no `code` field. -/
structure SafeUser where
  id : String
  name : Option String
  isAdmin : Bool
  isActive : Bool
  inviteToken : Option String
  inviteExpires : Option Nat
  deriving DecidableEq, Repr

/-- Redaction performed before a User record leaves the server. -/
def redactUser (u : User) : SafeUser :=
  { id := u.id, name := u.name, isAdmin := u.isAdmin, isActive := u.isActive,
    inviteToken := u.inviteToken, inviteExpires := u.inviteExpires }

/-- Outcome of POST /auth/login. -/
inductive LoginResult
  | missingCode
  | invalidCode
  | ok (user : SafeUser)
  deriving DecidableEq, Repr

/-- POST /auth/login (server.js lines 90-102). -/
def login (users : List User) (code : String) : LoginResult :=
  if code == "" then .missingCode
  else
    match users.find? (fun u => u.code == some code && u.isActive) with
    | none => .invalidCode
    | some u => .ok (redactUser u)

/-- Outcome of POST /auth/activate.  `expired` is the "Приглашение истекло"
branch, `codeTaken` the "Этот код уже занят" branch, `badCodeFormat` the
4-6-digit check, `internalError` the (unreachable in practice) crash that
re-reading the just-updated user yields nothing. -/
inductive ActivateResult
  | missingFields
  | badCodeFormat
  | codeTaken
  | notFound
  | expired
  | internalError
  | ok (users : List User) (user : SafeUser)
  deriving DecidableEq, Repr

/-- The `$set` document of the activation update: set the chosen code,
flip `isActive`, clear the invite token and expiry. -/
def activateUpdate (code : String) (u : User) : User :=
  { u with code := some code, isActive := true, inviteToken := none,
           inviteExpires := none }

/-- POST /auth/activate (server.js lines 105-131). -/
def activate (users : List User) (now : Nat) (inviteToken code : String) :
    ActivateResult :=
  if inviteToken == "" || code == "" then .missingFields
  else if decide (code.length < 4) || decide (code.length > 6)
      || !(code.toList.all Char.isDigit) then .badCodeFormat
  else if (users.find? (fun u => u.code == some code && u.isActive)).isSome then
    .codeTaken
  else
    match users.find? (fun u => u.inviteToken == some inviteToken && !u.isActive) with
    | none => .notFound
    | some user =>
      if inviteExpired user.inviteExpires now then .expired
      else
        let users' := setFirst (fun u => u.id == user.id)
          (activateUpdate code) users
        match users'.find? (fun u => u.id == user.id) with
        | none => .internalError
        | some updated => .ok users' (redactUser updated)

/-- GET /users (server.js lines 150-161): every user, redacted. -/
def getUsers (users : List User) : List SafeUser :=
  users.map redactUser

/-- Outcome of POST /users. -/
inductive CreateUserResult
  | missingName
  | ok (users : List User) (user : SafeUser) (inviteToken : String)
  deriving DecidableEq, Repr

/-- POST /users (server.js lines 164-185).  `newId`, `inviteToken` and
`inviteExpires` stand for the `'u' + Date.now()`, `generateToken()` and
`Date.now() + 7d` values produced by the environment. -/
def createUser (users : List User) (name : Option String) (isAdmin : Bool)
    (newId inviteToken : String) (inviteExpires : Nat) : CreateUserResult :=
  match presentString name with
  | none => .missingName
  | some n =>
    let user : User :=
      { id := newId, name := some n, code := none, isAdmin := isAdmin,
        isActive := false, inviteToken := some inviteToken,
        inviteExpires := some inviteExpires }
    .ok (users ++ [user]) (redactUser user) inviteToken

/-- The `addChildren` recursion of `getAccessibleContainerIds`
(server.js lines 232-237): for every container whose `parent` is
`parentId`, add its id to the accumulated set and recurse into it.  The
source recursion carries no visited set; the fuel parameter bounds the
recursion depth and `none` reports that the source would have recursed
deeper than `fuel` (on a cyclic parent graph: forever). -/
def addChildren (cs : List Container) : Nat → String → Finset String →
    Option (Finset String)
  | 0, _, _ => none
  | fuel + 1, parentId, acc =>
    (cs.filter fun c => c.parent == some parentId).foldlM
      (fun a child => addChildren cs fuel child.id (insert child.id a)) acc

/-- getAccessibleContainerIds (server.js lines 218-240). -/
def getAccessibleContainerIds (cs : List Container)
    (accessRecords : List ContainerAccess) (userId : String) (fuel : Nat) :
    Option (Finset String) :=
  let ownedIds := (cs.filter fun c => c.ownerId == some userId).map (·.id)
  let directAccessIds :=
    (accessRecords.filter fun a => a.userId == userId).map (·.containerId)
  let rootAccessIds := (ownedIds ++ directAccessIds).dedup
  rootAccessIds.foldlM (fun a i => addChildren cs fuel i a) rootAccessIds.toFinset

/-- Mongo ascending sort on the `order` field (`.sort({ order: 1 })`):
embedded as insertion sort — a sorted permutation of the table, which is
all the driver guarantees. -/
def sortCategories (cats : List Category) : List Category :=
  cats.insertionSort (fun a b => a.order ≤ b.order)

/-- Response body of GET /sync. -/
structure SyncResult where
  containers : List Container
  items : List Item
  categories : List Category
  deriving DecidableEq, Repr

/-- GET /sync (server.js lines 245-265). -/
def sync (st : State) (user : User) (fuel : Nat) : Option SyncResult :=
  if user.isAdmin then
    some { containers := st.containers, items := st.items,
           categories := sortCategories st.categories }
  else
    match getAccessibleContainerIds st.containers st.containerAccess user.id fuel with
    | none => none
    | some accessibleIds =>
      let containers := st.containers.filter fun c => decide (c.id ∈ accessibleIds)
      let idsSet := (containers.map (·.id)).toFinset
      let items := st.items.filter fun i =>
        match i.container with
        | some cid => decide (cid ∈ idsSet)
        | none => false
      some { containers := containers, items := items,
             categories := sortCategories st.categories }

/-- GET /items (server.js lines 352-359): every item, for any
authenticated caller; the user is not consulted. -/
def getItems (st : State) (_user : User) : List Item :=
  st.items

/-- Request body of POST /containers. -/
structure ContainerBody where
  name : Option String
  number : Option String
  photo : Option String
  parent : Option String
  deriving DecidableEq, Repr

/-- POST /containers (server.js lines 284-307).  `newId` and `created`
stand for `'c' + Date.now()` and `new Date().toISOString()`. -/
def createContainer (cs : List Container) (requesterId newId : String)
    (body : ContainerBody) (created : String) : List Container × Container :=
  let ownerId :=
    match presentString body.parent with
    | some p =>
      match cs.find? (fun c => c.id == p) with
      | some parentContainer => stringOrElse parentContainer.ownerId requesterId
      | none => requesterId
    | none => requesterId
  let container : Container :=
    { id := newId, name := body.name, number := presentString body.number,
      photo := presentString body.photo, parent := presentString body.parent,
      ownerId := some ownerId, created := created }
  (cs ++ [container], container)

/-- Partial-update body of PUT /containers/:id: an outer `none` is an
absent key (`req.body.x === undefined`), `some none` an explicit JSON
`null`, `some (some v)` a value. -/
structure ContainerPatch where
  name : Option (Option String)
  number : Option (Option String)
  photo : Option (Option String)
  parent : Option (Option String)
  deriving DecidableEq, Repr

/-- The `$set` document built by PUT /containers/:id applied to a record. -/
def applyContainerPatch (p : ContainerPatch) (c : Container) : Container :=
  { c with name := p.name.getD c.name, number := p.number.getD c.number,
           photo := p.photo.getD c.photo, parent := p.parent.getD c.parent }

/-- PUT /containers/:id (server.js lines 309-324): update the first record
with the id, then re-read and return it (`null` — here `none` — when the
id does not exist; the handler answers 200 either way). -/
def putContainer (cs : List Container) (id : String) (patch : ContainerPatch) :
    List Container × Option Container :=
  let cs' := setFirst (fun c => c.id == id) (applyContainerPatch patch) cs
  (cs', cs'.find? (fun c => c.id == id))

/-- Partial-update body of PUT /items/:id. -/
structure ItemPatch where
  name : Option (Option String)
  quantity : Option (Option Int)
  minQuantity : Option (Option Int)
  category : Option (Option String)
  photo : Option (Option String)
  container : Option (Option String)
  deriving DecidableEq, Repr

/-- The `$set` document built by PUT /items/:id applied to a record. -/
def applyItemPatch (p : ItemPatch) (i : Item) : Item :=
  { i with name := p.name.getD i.name, quantity := p.quantity.getD i.quantity,
           minQuantity := p.minQuantity.getD i.minQuantity,
           category := p.category.getD i.category,
           photo := p.photo.getD i.photo,
           container := p.container.getD i.container }

/-- PUT /items/:id (server.js lines 380-397). -/
def putItem (items : List Item) (id : String) (patch : ItemPatch) :
    List Item × Option Item :=
  let items' := setFirst (fun i => i.id == id) (applyItemPatch patch) items
  (items', items'.find? (fun i => i.id == id))

/-- Response of DELETE /containers/:id; the two conflict answers are the
two 400 early returns. -/
inductive DeleteResp
  | conflictNested
  | conflictItems
  | success
  deriving DecidableEq, Repr

/-- DELETE /containers/:id (server.js lines 326-348): refuse when a child
container or an item references the id, else remove the (first) container
with the id and every containerAccess row naming it. -/
def deleteContainer (st : State) (id : String) : State × DeleteResp :=
  if 0 < st.containers.countP (fun c => c.parent == some id) then
    (st, .conflictNested)
  else if 0 < st.items.countP (fun i => i.container == some id) then
    (st, .conflictItems)
  else
    ({ st with containers := st.containers.eraseP (fun c => c.id == id),
               containerAccess :=
                 st.containerAccess.filter (fun a => !(a.containerId == id)) },
     .success)

/-- One parent-link step: `c` is a child of `p` in the container table. -/
def childStep (cs : List Container) (p c : String) : Prop :=
  ∃ k ∈ cs, k.parent = some p ∧ k.id = c

/-- `c` is a strict descendant of `p` (at any depth ≥ 1) via parent links. -/
def Descendant (cs : List Container) (p c : String) : Prop :=
  Relation.TransGen (childStep cs) p c

/-- The forest invariant: no container id is its own strict ancestor. -/
def Acyclic (cs : List Container) : Prop :=
  ∀ x, ¬ Descendant cs x x

/-- `x` is in the "root access set" of a user: a container the user owns,
or one named by a ContainerAccess row for the user. -/
def ownsOrGranted (cs : List Container) (accs : List ContainerAccess)
    (userId x : String) : Prop :=
  (∃ c ∈ cs, c.ownerId = some userId ∧ c.id = x) ∨
  (∃ a ∈ accs, a.userId = userId ∧ a.containerId = x)

/-! ### Generic list helper lemmas -/

lemma setFirst_of_forall_not (p : α → Bool) (f : α → α) (l : List α)
    (h : ∀ a ∈ l, p a = false) : setFirst p f l = l := by
  induction l with
  | nil => rfl
  | cons x xs ih =>
    simp only [setFirst, h x (List.mem_cons_self x xs)]
    simp only [Bool.false_eq_true, if_false, List.cons.injEq, true_and]
    exact ih fun a ha => h a (List.mem_cons_of_mem x ha)

lemma setFirst_append_cons (p : α → Bool) (f : α → α) (l₁ l₂ : List α) (a : α)
    (h₁ : ∀ b ∈ l₁, p b = false) (ha : p a = true) :
    setFirst p f (l₁ ++ a :: l₂) = l₁ ++ f a :: l₂ := by
  induction l₁ with
  | nil => simp [setFirst, ha]
  | cons x xs ih =>
    simp only [List.cons_append, setFirst, h₁ x (List.mem_cons_self x xs)]
    simp only [Bool.false_eq_true, if_false, List.cons.injEq, true_and]
    exact ih fun b hb => h₁ b (List.mem_cons_of_mem x hb)

lemma mem_setFirst (p : α → Bool) (f : α → α) (l : List α) (x : α)
    (hx : x ∈ setFirst p f l) : x ∈ l ∨ ∃ a ∈ l, p a = true ∧ x = f a := by
  induction l with
  | nil => simp [setFirst] at hx
  | cons y ys ih =>
    by_cases hy : p y = true
    · rw [setFirst, if_pos hy] at hx
      rcases List.mem_cons.mp hx with h | h
      · exact Or.inr ⟨y, List.mem_cons_self y ys, hy, h⟩
      · exact Or.inl (List.mem_cons_of_mem y h)
    · rw [setFirst, if_neg hy] at hx
      rcases List.mem_cons.mp hx with h | h
      · exact Or.inl (by rw [h]; exact List.mem_cons_self y ys)
      · rcases ih h with h' | ⟨a, ha, hpa, hxa⟩
        · exact Or.inl (List.mem_cons_of_mem y h')
        · exact Or.inr ⟨a, List.mem_cons_of_mem y ha, hpa, hxa⟩

lemma find?_append_cons (p : α → Bool) (l₁ l₂ : List α) (a : α)
    (h₁ : ∀ b ∈ l₁, p b = false) (ha : p a = true) :
    (l₁ ++ a :: l₂).find? p = some a := by
  induction l₁ with
  | nil => simp [List.find?_cons, ha]
  | cons x xs ih =>
    simp only [List.cons_append, List.find?_cons, h₁ x (List.mem_cons_self x xs)]
    exact ih fun b hb => h₁ b (List.mem_cons_of_mem x hb)

/-- Split a list at an element whose key is unique in the list. -/
lemma exists_split_of_nodup_key (key : α → String) (l : List α) (a : α)
    (hnodup : (l.map key).Nodup) (ha : a ∈ l) :
    ∃ l₁ l₂, l = l₁ ++ a :: l₂ ∧ (∀ b ∈ l₁, key b ≠ key a) ∧
      (∀ b ∈ l₂, key b ≠ key a) := by
  obtain ⟨l₁, l₂, rfl⟩ := List.append_of_mem ha
  refine ⟨l₁, l₂, rfl, ?_, ?_⟩
  · intro b hb hkey
    have : key a ∈ l₁.map key := hkey ▸ List.mem_map_of_mem key hb
    simp only [List.map_append, List.map_cons, List.nodup_append,
      List.nodup_cons, List.disjoint_cons_right] at hnodup
    exact hnodup.2.2.1 this
  · intro b hb hkey
    have : key a ∈ l₂.map key := hkey ▸ List.mem_map_of_mem key hb
    simp only [List.map_append, List.map_cons, List.nodup_append,
      List.nodup_cons] at hnodup
    exact hnodup.2.1.1 this

/-- Behaviour of `eraseP` keyed on a field that is unique in the list. -/
lemma eraseP_key (key : α → String) (id : String) (l : List α)
    (hnodup : (l.map key).Nodup) :
    (∀ c ∈ l.eraseP (fun x => key x == id), key c ≠ id) ∧
    (∀ c ∈ l, key c ≠ id → c ∈ l.eraseP (fun x => key x == id)) ∧
    (∀ c ∈ l.eraseP (fun x => key x == id), c ∈ l) := by
  induction l with
  | nil => simp
  | cons x xs ih =>
    simp only [List.map_cons, List.nodup_cons] at hnodup
    obtain ⟨hx, hxs⟩ := hnodup
    by_cases hkey : key x = id
    · have hx' : (key x == id) = true := beq_iff_eq.mpr hkey
      rw [List.eraseP_cons, hx', cond_true]
      refine ⟨?_, ?_, fun c hc => List.mem_cons_of_mem x hc⟩
      · intro c hc hcid
        exact hx (hkey ▸ hcid ▸ List.mem_map_of_mem key hc)
      · intro c hc hcid
        rcases List.mem_cons.mp hc with h | hc
        · exact absurd (h ▸ hkey) hcid
        · exact hc
    · have hx' : (key x == id) = false := beq_eq_false_iff_ne.mpr hkey
      rw [List.eraseP_cons, hx', cond_false]
      obtain ⟨ih1, ih2, ih3⟩ := ih hxs
      refine ⟨?_, ?_, ?_⟩
      · intro c hc hcid
        rcases List.mem_cons.mp hc with h | hc
        · exact hkey (h ▸ hcid)
        · exact ih1 c hc hcid
      · intro c hc hcid
        rcases List.mem_cons.mp hc with h | hc
        · exact h ▸ List.mem_cons_self x _
        · exact List.mem_cons_of_mem x (ih2 c hc hcid)
      · intro c hc
        rcases List.mem_cons.mp hc with h | hc
        · exact h ▸ List.mem_cons_self x xs
        · exact List.mem_cons_of_mem x (ih3 c hc)

/-- A table in which no container has a parent link satisfies the forest
invariant. -/
lemma acyclic_of_no_parent (cs : List Container)
    (h : ∀ c ∈ cs, c.parent = none) : Acyclic cs := by
  intro x hx
  obtain ⟨b, hstep, -⟩ := Relation.TransGen.head'_iff.mp hx
  obtain ⟨k, hk, hkp, -⟩ := hstep
  exact absurd (h k hk) (by simp [hkp])

/-! ### Characterization of the access-closure traversal -/

/-- Heads of the descendant relation: a strict descendant of `p` is an
element of some child subtree of `p`. -/
lemma descendant_iff_exists_child (cs : List Container) (p x : String) :
    Descendant cs p x ↔ ∃ c ∈ cs.filter (fun c => c.parent == some p),
      x = c.id ∨ Descendant cs c.id x := by
  constructor
  · intro h
    obtain ⟨b, hb, hrest⟩ := Relation.TransGen.head'_iff.mp h
    obtain ⟨k, hk, hkp, hkid⟩ := hb
    refine ⟨k, List.mem_filter.mpr ⟨hk, by simp [hkp]⟩, ?_⟩
    rcases Relation.reflTransGen_iff_eq_or_transGen.mp hrest with h' | htrans
    · left; rw [h', hkid]
    · right; rw [hkid]; exact htrans
  · rintro ⟨c, hc, hx⟩
    have hc' := List.mem_filter.mp hc
    have hstep : childStep cs p c.id := ⟨c, hc'.1, by simpa using hc'.2, rfl⟩
    rcases hx with rfl | hdesc
    · exact Relation.TransGen.single hstep
    · exact Relation.TransGen.head hstep hdesc

/-- The inner `forEach` of `addChildren`: folding the recursion over a list
of children adds exactly those children and their strict descendants. -/
lemma foldlM_addChildren_mem (cs : List Container) (fuel : Nat)
    (ih : ∀ (q : String) (acc out : Finset String),
      addChildren cs fuel q acc = some out →
      ∀ x, x ∈ out ↔ x ∈ acc ∨ Descendant cs q x) :
    ∀ (l : List Container) (acc out : Finset String),
      l.foldlM (fun a child => addChildren cs fuel child.id (insert child.id a))
        acc = some out →
      ∀ x, x ∈ out ↔ x ∈ acc ∨ ∃ c ∈ l, x = c.id ∨ Descendant cs c.id x := by
  intro l
  induction l with
  | nil =>
    intro acc out h x
    simp only [List.foldlM_nil, Option.pure_def, Option.some.injEq] at h
    subst h; simp
  | cons c rest ihl =>
    intro acc out h x
    rw [List.foldlM_cons] at h
    cases hstep : addChildren cs fuel c.id (insert c.id acc) with
    | none => rw [hstep] at h; simp at h
    | some a1 =>
      rw [hstep] at h
      simp only [Option.bind_eq_bind, Option.some_bind] at h
      rw [ihl a1 out h x, ih c.id (insert c.id acc) a1 hstep x]
      simp only [Finset.mem_insert]
      constructor
      · rintro (((hB | hA) | hC) | ⟨c', hc', hp⟩)
        · exact Or.inr ⟨c, List.mem_cons_self c rest, Or.inl hB⟩
        · exact Or.inl hA
        · exact Or.inr ⟨c, List.mem_cons_self c rest, Or.inr hC⟩
        · exact Or.inr ⟨c', List.mem_cons_of_mem c hc', hp⟩
      · rintro (hA | ⟨c', hc', hp⟩)
        · exact Or.inl (Or.inl (Or.inr hA))
        · rcases List.mem_cons.mp hc' with rfl | hc'
          · rcases hp with hB | hC
            · exact Or.inl (Or.inl (Or.inl hB))
            · exact Or.inl (Or.inr hC)
          · exact Or.inr ⟨c', hc', hp⟩

/-- When `addChildren cs fuel p acc` completes (returns `some`), its result
is exactly `acc` together with every strict descendant of `p`. -/
lemma addChildren_mem (cs : List Container) :
    ∀ (fuel : Nat) (p : String) (acc out : Finset String),
      addChildren cs fuel p acc = some out →
      ∀ x, x ∈ out ↔ x ∈ acc ∨ Descendant cs p x := by
  intro fuel
  induction fuel with
  | zero => intro p acc out h; simp [addChildren] at h
  | succ n ih =>
    intro p acc out h x
    rw [addChildren] at h
    rw [foldlM_addChildren_mem cs n ih _ _ _ h x]
    exact or_congr Iff.rfl (descendant_iff_exists_child cs p x).symm

/-- The outer `rootAccessIds.forEach(id => addChildren(id))` loop: folding
the traversal over a list of roots adds exactly the strict descendants of
those roots. -/
lemma rootFold_mem (cs : List Container) (fuel : Nat) :
    ∀ (roots : List String) (acc out : Finset String),
      roots.foldlM (fun a i => addChildren cs fuel i a) acc = some out →
      ∀ x, x ∈ out ↔ x ∈ acc ∨ ∃ r ∈ roots, Descendant cs r x := by
  intro roots
  induction roots with
  | nil =>
    intro acc out h x
    simp only [List.foldlM_nil, Option.pure_def, Option.some.injEq] at h
    subst h; simp
  | cons r rest ihr =>
    intro acc out h x
    rw [List.foldlM_cons] at h
    cases hstep : addChildren cs fuel r acc with
    | none => rw [hstep] at h; simp at h
    | some a1 =>
      rw [hstep] at h
      simp only [Option.bind_eq_bind, Option.some_bind] at h
      rw [ihr a1 out h x, addChildren_mem cs fuel r acc a1 hstep x]
      constructor
      · rintro ((hA | hC) | ⟨r', hr', hp⟩)
        · exact Or.inl hA
        · exact Or.inr ⟨r, List.mem_cons_self r rest, hC⟩
        · exact Or.inr ⟨r', List.mem_cons_of_mem r hr', hp⟩
      · rintro (hA | ⟨r', hr', hp⟩)
        · exact Or.inl (Or.inl hA)
        · rcases List.mem_cons.mp hr' with rfl | hr'
          · exact Or.inl (Or.inr hp)
          · exact Or.inr ⟨r', hr', hp⟩

/-- Membership in the root access list built by `getAccessibleContainerIds`. -/
lemma mem_rootAccessIds (cs : List Container) (accs : List ContainerAccess)
    (userId y : String) :
    (y ∈ ((cs.filter fun c => c.ownerId == some userId).map (·.id) ++
        (accs.filter fun a => a.userId == userId).map (·.containerId)).dedup) ↔
      ownsOrGranted cs accs userId y := by
  rw [List.mem_dedup]
  simp only [List.mem_append, List.mem_map, List.mem_filter, beq_iff_eq]
  unfold ownsOrGranted
  constructor
  · rintro (⟨c, ⟨hc, ho⟩, hid⟩ | ⟨a, ⟨ha, hu⟩, hid⟩)
    · exact Or.inl ⟨c, hc, ho, hid⟩
    · exact Or.inr ⟨a, ha, hu, hid⟩
  · rintro (⟨c, hc, ho, hid⟩ | ⟨a, ha, hu, hid⟩)
    · exact Or.inl ⟨c, ⟨hc, ho⟩, hid⟩
    · exact Or.inr ⟨a, ⟨ha, hu⟩, hid⟩

/-! ### C1: exactness of the accessible-container set -/

/-- C1: for every user, whenever `getAccessibleContainerIds` completes
within the given recursion-depth fuel (returns `some S`), the set `S`
contains exactly: every container the user owns, every container granted
to the user through a ContainerAccess row, and every strict descendant (at
any depth, via the parent links) of those containers — and no other ids. -/
theorem C1_getAccessibleContainerIds_exact
    (cs : List Container) (accs : List ContainerAccess) (userId : String)
    (fuel : Nat) (S : Finset String)
    (h : getAccessibleContainerIds cs accs userId fuel = some S) (x : String) :
    x ∈ S ↔ ownsOrGranted cs accs userId x ∨
      ∃ r, ownsOrGranted cs accs userId r ∧ Descendant cs r x := by
  simp only [getAccessibleContainerIds] at h
  rw [rootFold_mem cs fuel _ _ _ h x, List.mem_toFinset,
    mem_rootAccessIds cs accs userId x]
  apply or_congr Iff.rfl
  exact exists_congr fun r =>
    and_congr_left fun _ => mem_rootAccessIds cs accs userId r

/-- Containers for the C1 witness: `c2` nested in `c1`, `c1` owned by `u1`. -/
def wOwned : Container :=
  { id := "c1", name := some "shelf", number := none, photo := none,
    parent := none, ownerId := some "u1", created := "t1" }

def wNested : Container :=
  { id := "c2", name := some "box", number := none, photo := none,
    parent := some "c1", ownerId := some "u1", created := "t2" }

/-- Witness for C1 at a concrete store: the characterization instantiated
at the nested container `c2` of an owned root. -/
theorem C1_witness :
    ("c2" ∈ ({"c1", "c2"} : Finset String)) ↔
      ownsOrGranted [wOwned, wNested] [] "u1" "c2" ∨
        ∃ r, ownsOrGranted [wOwned, wNested] [] "u1" r ∧
          Descendant [wOwned, wNested] r "c2" :=
  C1_getAccessibleContainerIds_exact [wOwned, wNested] [] "u1" 5
    {"c1", "c2"} (by decide) "c2"

/-! ### C2: behaviour on a cyclic (corrupted) parent graph -/

/-- Two containers forming a parent cycle: `c1.parent = c2`,
`c2.parent = c1`; `c1` owned by `u1`. -/
def cycA : Container :=
  { id := "c1", name := some "a", number := none, photo := none,
    parent := some "c2", ownerId := some "u1", created := "t" }

def cycB : Container :=
  { id := "c2", name := some "b", number := none, photo := none,
    parent := some "c1", ownerId := none, created := "t" }

/-- On the two-cycle, `addChildren` exhausts any recursion-depth fuel from
either node: the source, which has no visited-set guard, recurses forever. -/
lemma addChildren_cyc (n : Nat) :
    (∀ acc, addChildren [cycA, cycB] n "c1" acc = none) ∧
    (∀ acc, addChildren [cycA, cycB] n "c2" acc = none) := by
  induction n with
  | zero => exact ⟨fun _ => rfl, fun _ => rfl⟩
  | succ m ih =>
    constructor
    · intro acc
      rw [addChildren]
      simp only [show ([cycA, cycB].filter fun c => c.parent == some "c1") =
          [cycB] from rfl, List.foldlM_cons,
        show cycB.id = "c2" from rfl, ih.2, Option.bind_eq_bind,
        Option.none_bind]
    · intro acc
      rw [addChildren]
      simp only [show ([cycA, cycB].filter fun c => c.parent == some "c2") =
          [cycA] from rfl, List.foldlM_cons,
        show cycA.id = "c1" from rfl, ih.1, Option.bind_eq_bind,
        Option.none_bind]

/-- C2 (code bug): on a corrupted container table whose parent links form
a cycle reachable from the root access set, `getAccessibleContainerIds`
does NOT terminate: the `addChildren` recursion keeps no visited set, so
for every recursion-depth bound the traversal exceeds it (in JS: unbounded
recursion until stack overflow), contradicting the spec's requirement to
track visited ids and refuse to revisit. -/
theorem C2_cyclic_traversal_diverges (fuel : Nat) :
    getAccessibleContainerIds [cycA, cycB] [] "u1" fuel = none := by
  have h1 : getAccessibleContainerIds [cycA, cycB] [] "u1" fuel =
      ["c1"].foldlM (fun a i => addChildren [cycA, cycB] fuel i a)
        (["c1"].toFinset) := rfl
  rw [h1, List.foldlM_cons]
  simp only [(addChildren_cyc fuel).1, Option.bind_eq_bind, Option.none_bind]

/-! ### C3: the forest invariant under creation and update -/

/-- A PUT /containers/:id body that re-parents `c1` under itself. -/
def selfParentPatch : ContainerPatch :=
  { name := none, number := none, photo := none, parent := some (some "c1") }

/-- C3 counterexample: the claim "no operation reachable from the public
interface can make an existing container an ancestor of itself" is false.
Starting from an acyclic store holding the single root container `c1`,
`PUT /containers/c1` with body `{"parent": "c1"}` succeeds and leaves `c1`
its own parent, a cycle. -/
theorem C3_counterexample :
    Acyclic [wOwned] ∧
      ¬ Acyclic (putContainer [wOwned] "c1" selfParentPatch).1 := by
  constructor
  · exact acyclic_of_no_parent _ (by decide)
  · intro hAcyc
    apply hAcyc "c1"
    refine Relation.TransGen.single ?_
    refine ⟨applyContainerPatch selfParentPatch wOwned, ?_, rfl, rfl⟩
    show applyContainerPatch selfParentPatch wOwned ∈
      [applyContainerPatch selfParentPatch wOwned]
    exact List.mem_cons_self _ _

/-- C3 amended: container creation does preserve the forest invariant
whenever the generated id is fresh (no existing container's parent link
names it) and the requested parent is not the new id itself; container
update (`PUT /containers/:id`), by contrast, can set `parent` freely and
can make a container its own ancestor (see the counterexample). -/
theorem C3_createContainer_preserves_acyclicity
    (cs : List Container) (requesterId newId : String) (body : ContainerBody)
    (created : String)
    (hfresh : ∀ c ∈ cs, c.parent ≠ some newId)
    (hbody : body.parent ≠ some newId)
    (hacyc : Acyclic cs) :
    Acyclic (createContainer cs requesterId newId body created).1 := by
  set newC : Container := (createContainer cs requesterId newId body created).2
    with hnewC
  have hcs' : (createContainer cs requesterId newId body created).1
      = cs ++ [newC] := rfl
  have hparent : newC.parent ≠ some newId := by
    intro hp
    have : presentString body.parent = some newId := hp
    rcases hbp : body.parent with _ | p
    · rw [hbp] at this; exact Option.noConfusion this
    · rw [hbp] at this
      by_cases hpe : p = ""
      · simp [presentString, hpe] at this
      · simp only [presentString, if_neg hpe, Option.some.injEq] at this
        exact hbody (by rw [hbp, this])
  have hid : newC.id = newId := rfl
  have hnostep : ∀ b, ¬ childStep (cs ++ [newC]) newId b := by
    rintro b ⟨k, hk, hkp, -⟩
    rcases List.mem_append.mp hk with hk | hk
    · exact hfresh k hk hkp
    · rcases List.mem_singleton.mp hk with rfl
      exact hparent hkp
  have hstep' : ∀ a b, childStep (cs ++ [newC]) a b → childStep cs a b ∨ b = newId := by
    rintro a b ⟨k, hk, hkp, hkid⟩
    rcases List.mem_append.mp hk with hk | hk
    · exact Or.inl ⟨k, hk, hkp, hkid⟩
    · rcases List.mem_singleton.mp hk with rfl
      exact Or.inr (hkid.symm.trans hid)
  have htrans : ∀ x y, Relation.TransGen (childStep (cs ++ [newC])) x y →
      Relation.TransGen (childStep cs) x y ∨ y = newId := by
    intro x y h
    induction h with
    | single h' =>
      rcases hstep' _ _ h' with h' | h'
      · exact Or.inl (Relation.TransGen.single h')
      · exact Or.inr h'
    | tail hxb hstep ih =>
      rcases ih with ih | rfl
      · rcases hstep' _ _ hstep with h' | h'
        · exact Or.inl (Relation.TransGen.tail ih h')
        · exact Or.inr h'
      · exact absurd hstep (hnostep _)
  rw [hcs']
  intro x hx
  rcases htrans x x hx with h | rfl
  · exact hacyc x h
  · obtain ⟨b, hb, -⟩ := Relation.TransGen.head'_iff.mp hx
    exact hnostep b hb

/-- Witness for the amended C3 theorem: creating `c9` under the existing
root `c1` keeps the store acyclic. -/
theorem C3_witness :
    Acyclic (createContainer [wOwned] "u1" "c9"
      { name := some "crate", number := none, photo := none,
        parent := some "c1" } "t3").1 :=
  C3_createContainer_preserves_acyclicity [wOwned] "u1" "c9"
    { name := some "crate", number := none, photo := none,
      parent := some "c1" } "t3"
    (by decide) (by decide) (acyclic_of_no_parent _ (by decide))

/-! ### C4: the sync view -/

/-- The Mongo `.sort({ order: 1 })` on categories: a permutation of the
table, ascending in `order`. -/
lemma sortCategories_perm_sorted (cats : List Category) :
    (sortCategories cats).Perm cats ∧
      (sortCategories cats).Pairwise (fun a b => a.order ≤ b.order) := by
  constructor
  · exact List.perm_insertionSort (fun a b => a.order ≤ b.order) cats
  · haveI : IsTotal Category (fun a b => a.order ≤ b.order) :=
      ⟨fun a b => le_total a.order b.order⟩
    haveI : IsTrans Category (fun a b => a.order ≤ b.order) :=
      ⟨fun _ _ _ hab hbc => le_trans hab hbc⟩
    exact List.sorted_insertionSort (fun a b => a.order ≤ b.order) cats

/-- A non-admin regular user. -/
def bobUser : User :=
  { id := "bob", name := some "Bob", code := some "1234", isAdmin := false,
    isActive := true, inviteToken := none, inviteExpires := none }

/-- An item whose container reference `c9` has no container record. -/
def danglingItem : Item :=
  { id := "i1", name := some "drill", quantity := some 1,
    minQuantity := some 0, category := none, photo := none,
    container := some "c9", created := "t" }

/-- Store for the C4 counterexample: `bob` holds a ContainerAccess grant on
the id `c9`, but no container with that id exists; one item sits in `c9`. -/
def st4 : State :=
  { users := [bobUser], containers := [], items := [danglingItem],
    categories := [], containerAccess := [⟨"c9", "bob"⟩] }

/-- C4 counterexample: sync does NOT return "exactly the Items whose
container field is in accessibleContainers(user)": the id `c9` is in bob's
accessible set (via a dangling ContainerAccess grant) and `danglingItem`
sits in `c9`, yet sync omits it, because items are filtered against the
ids of the *returned containers* (existing, accessible ones) rather than
against the accessible-id set itself. -/
theorem C4_counterexample :
    ∃ acc r,
      getAccessibleContainerIds st4.containers st4.containerAccess "bob" 1 =
        some acc ∧
      "c9" ∈ acc ∧ danglingItem.container = some "c9" ∧
      sync st4 bobUser 1 = some r ∧ danglingItem ∈ st4.items ∧
      danglingItem ∉ r.items :=
  ⟨{"c9"}, { containers := [], items := [], categories := [] },
    by decide, by decide, rfl, by decide, by decide, by decide⟩

/-- C4 amended: for an authenticated user, sync returns — when the access
closure completes — all containers, all items for an admin; for a
non-admin exactly the stored containers whose id is accessible and exactly
the stored items whose container field names a stored accessible
container; and for everyone every category, sorted ascending by `order`. -/
theorem C4_sync_characterization (st : State) (u : User) (fuel : Nat)
    (r : SyncResult) (h : sync st u fuel = some r) :
    (u.isAdmin = true → r.containers = st.containers ∧ r.items = st.items) ∧
    (u.isAdmin = false →
      ∃ acc, getAccessibleContainerIds st.containers st.containerAccess
          u.id fuel = some acc ∧
        (∀ c, c ∈ r.containers ↔ c ∈ st.containers ∧ c.id ∈ acc) ∧
        (∀ i, i ∈ r.items ↔ i ∈ st.items ∧
          ∃ c ∈ st.containers, c.id ∈ acc ∧ i.container = some c.id)) ∧
    (r.categories.Perm st.categories ∧
      r.categories.Pairwise (fun a b => a.order ≤ b.order)) := by
  cases hAdm : u.isAdmin with
  | true =>
    simp only [sync, hAdm, if_true] at h
    rcases Option.some.injEq .. ▸ h with rfl
    refine ⟨fun _ => ⟨rfl, rfl⟩, fun hfalse => Bool.noConfusion hfalse, ?_⟩
    exact sortCategories_perm_sorted st.categories
  | false =>
    simp only [sync, hAdm, Bool.false_eq_true, if_false] at h
    cases hacc : getAccessibleContainerIds st.containers st.containerAccess
        u.id fuel with
    | none => rw [hacc] at h; exact absurd h (by simp)
    | some acc =>
      rw [hacc] at h
      simp only [Option.some.injEq] at h
      subst h
      refine ⟨fun htrue => Bool.noConfusion htrue, ?_, ?_⟩
      · intro _
        refine ⟨acc, rfl, ?_, ?_⟩
        · intro c
          simp [List.mem_filter]
        · intro i
          simp only [List.mem_filter]
          apply and_congr Iff.rfl
          cases hic : i.container with
          | none => simp
          | some cid =>
            simp only [decide_eq_true_eq, List.mem_toFinset, List.mem_map,
              List.mem_filter, decide_eq_true_eq]
            constructor
            · rintro ⟨c, ⟨hc, hcid⟩, rfl⟩
              exact ⟨c, hc, hcid, rfl⟩
            · rintro ⟨c, hc, hcid, heq⟩
              rcases Option.some.injEq .. ▸ heq with rfl
              exact ⟨c, ⟨hc, hcid⟩, rfl⟩
      · exact sortCategories_perm_sorted st.categories

/-- A container and item owned by bob, for the C4 witness. -/
def bobContainer : Container :=
  { id := "c1", name := some "shelf", number := none, photo := none,
    parent := none, ownerId := some "bob", created := "t" }

def bobItem : Item :=
  { id := "i2", name := some "saw", quantity := some 1, minQuantity := some 0,
    category := none, photo := none, container := some "c1", created := "t" }

def wSt4 : State :=
  { users := [bobUser], containers := [bobContainer], items := [bobItem],
    categories := [], containerAccess := [] }

def rEx4 : SyncResult :=
  { containers := [bobContainer], items := [bobItem], categories := [] }

/-- Witness for the amended C4 theorem: the non-admin branch instantiated
on a concrete store where bob owns one container holding one item. -/
theorem C4_witness :
    ∃ acc, getAccessibleContainerIds wSt4.containers wSt4.containerAccess
        bobUser.id 2 = some acc ∧
      (∀ c, c ∈ rEx4.containers ↔ c ∈ wSt4.containers ∧ c.id ∈ acc) ∧
      (∀ i, i ∈ rEx4.items ↔ i ∈ wSt4.items ∧
        ∃ c ∈ wSt4.containers, c.id ∈ acc ∧ i.container = some c.id) :=
  (C4_sync_characterization wSt4 bobUser 2 rEx4 (by decide)).2.1 rfl

/-! ### C5: container deletion -/

/-- C5: deleting container `id` answers Conflict and leaves the store
untouched whenever some container has parent `id` or some item sits in
`id`; otherwise it succeeds, removes the container with that id (ids being
unique), keeps every other container, removes exactly the ContainerAccess
rows naming `id`, and leaves items, users and categories unchanged. -/
theorem C5_deleteContainer_spec (st : State) (id : String)
    (hnodup : (st.containers.map (·.id)).Nodup) :
    ((∃ c ∈ st.containers, c.parent = some id) ∨
        (∃ i ∈ st.items, i.container = some id) →
      (deleteContainer st id).1 = st ∧ (deleteContainer st id).2 ≠ .success) ∧
    ((∀ c ∈ st.containers, c.parent ≠ some id) →
        (∀ i ∈ st.items, i.container ≠ some id) →
      (deleteContainer st id).2 = .success ∧
      (∀ c ∈ (deleteContainer st id).1.containers, c.id ≠ id) ∧
      (∀ c ∈ st.containers, c.id ≠ id →
        c ∈ (deleteContainer st id).1.containers) ∧
      (∀ c ∈ (deleteContainer st id).1.containers, c ∈ st.containers) ∧
      (∀ a, a ∈ (deleteContainer st id).1.containerAccess ↔
        a ∈ st.containerAccess ∧ a.containerId ≠ id) ∧
      (deleteContainer st id).1.items = st.items ∧
      (deleteContainer st id).1.users = st.users ∧
      (deleteContainer st id).1.categories = st.categories) := by
  constructor
  · intro hblock
    have hPQ : 0 < st.containers.countP (fun c => c.parent == some id) ∨
        0 < st.items.countP (fun i => i.container == some id) := by
      rcases hblock with ⟨c, hc, hp⟩ | ⟨i, hi, hp⟩
      · exact Or.inl (List.countP_pos_iff.mpr ⟨c, hc, beq_iff_eq.mpr hp⟩)
      · exact Or.inr (List.countP_pos_iff.mpr ⟨i, hi, beq_iff_eq.mpr hp⟩)
    by_cases hP : 0 < st.containers.countP (fun c => c.parent == some id)
    · rw [deleteContainer, if_pos hP]
      exact ⟨rfl, fun hc => DeleteResp.noConfusion hc⟩
    · have hQ := hPQ.resolve_left hP
      rw [deleteContainer, if_neg hP, if_pos hQ]
      exact ⟨rfl, fun hc => DeleteResp.noConfusion hc⟩
  · intro hc hi
    have hP : ¬ 0 < st.containers.countP (fun c => c.parent == some id) := by
      intro hpos
      obtain ⟨c, hcm, hcp⟩ := List.countP_pos_iff.mp hpos
      exact hc c hcm (beq_iff_eq.mp hcp)
    have hQ : ¬ 0 < st.items.countP (fun i => i.container == some id) := by
      intro hpos
      obtain ⟨i, him, hip⟩ := List.countP_pos_iff.mp hpos
      exact hi i him (beq_iff_eq.mp hip)
    rw [deleteContainer, if_neg hP, if_neg hQ]
    obtain ⟨he1, he2, he3⟩ := eraseP_key (fun c : Container => c.id) id
      st.containers hnodup
    refine ⟨rfl, he1, he2, he3, ?_, rfl, rfl, rfl⟩
    intro a
    simp [List.mem_filter, beq_eq_false_iff_ne]

/-- Store for the C5 witness: one childless, empty container `c1` with one
access row naming it. -/
def st5 : State :=
  { users := [], containers := [wOwned], items := [], categories := [],
    containerAccess := [⟨"c1", "helper"⟩] }

/-- Witness for C5: the success branch on the concrete store `st5`. -/
theorem C5_witness :
    (deleteContainer st5 "c1").2 = DeleteResp.success ∧
    (∀ c ∈ (deleteContainer st5 "c1").1.containers, c.id ≠ "c1") ∧
    (∀ c ∈ st5.containers, c.id ≠ "c1" →
      c ∈ (deleteContainer st5 "c1").1.containers) ∧
    (∀ c ∈ (deleteContainer st5 "c1").1.containers, c ∈ st5.containers) ∧
    (∀ a, a ∈ (deleteContainer st5 "c1").1.containerAccess ↔
      a ∈ st5.containerAccess ∧ a.containerId ≠ "c1") ∧
    (deleteContainer st5 "c1").1.items = st5.items ∧
    (deleteContainer st5 "c1").1.users = st5.users ∧
    (deleteContainer st5 "c1").1.categories = st5.categories :=
  (C5_deleteContainer_spec st5 "c1" (by decide)).2 (by decide) (by decide)

/-! ### C6: one-time activation -/

/-- Inversion for a successful activation: it can only arise from finding
an inactive user holding the token, updating that user, and returning the
redacted re-read record. -/
lemma activate_ok_inversion (us : List User) (now : Nat) (T c : String)
    (us2 : List User) (su : SafeUser)
    (h : activate us now T c = .ok us2 su) :
    ∃ u0 updated,
      us.find? (fun u => u.inviteToken == some T && !u.isActive) = some u0 ∧
      us2 = setFirst (fun u => u.id == u0.id) (activateUpdate c) us ∧
      updated ∈ us2 ∧ su = redactUser updated := by
  simp only [activate] at h
  split at h
  · exact ActivateResult.noConfusion h
  split at h
  · exact ActivateResult.noConfusion h
  split at h
  · exact ActivateResult.noConfusion h
  split at h
  · exact ActivateResult.noConfusion h
  next user heq =>
    split at h
    · exact ActivateResult.noConfusion h
    split at h
    · exact ActivateResult.noConfusion h
    next updated hupd =>
      obtain ⟨h1, h2⟩ := ActivateResult.ok.inj h
      exact ⟨user, updated, heq, h1.symm, h1 ▸ List.mem_of_find?_eq_some hupd,
        h2.symm⟩

/-- C6 amended: activation is single-use.  For an inviteToken `T` held by
exactly one (inactive) user, with a well-formed unclaimed code and an
unexpired invite, the first `activate` succeeds — the user's code is set,
`isActive` flips to true, and `inviteToken`/`inviteExpires` are cleared —
and a second `activate` with the same token can never succeed again: with
a well-formed code not claimed by an active user it answers NotFound, and
with any other code it fails on the format or code-uniqueness guard (the
claim's "fails with NotFound regardless of the code" is what the
counterexample refutes). -/
theorem C6_activate_single_use
    (users : List User) (now : Nat) (T code : String) (u0 : User)
    (hT : T ≠ "")
    (hfind : users.find? (fun u => u.inviteToken == some T && !u.isActive) =
      some u0)
    (hlen4 : ¬ code.length < 4) (hlen6 : ¬ code.length > 6)
    (hdig : code.toList.all Char.isDigit = true)
    (hfree : users.find? (fun u => u.code == some code && u.isActive) = none)
    (hexp : inviteExpired u0.inviteExpires now = false)
    (huniq : ∀ u ∈ users, u.inviteToken = some T → u.id = u0.id)
    (hnodup : (users.map (·.id)).Nodup) :
    ∃ users' su, activate users now T code = .ok users' su ∧
      su.isActive = true ∧ su.inviteToken = none ∧ su.inviteExpires = none ∧
      (∃ u1 ∈ users', u1.id = u0.id ∧ u1.code = some code ∧
        u1.isActive = true ∧ u1.inviteToken = none ∧ u1.inviteExpires = none) ∧
      (∀ u ∈ users, u.id ≠ u0.id → u ∈ users') ∧
      (∀ code2 us2 su2, activate users' now T code2 ≠ .ok us2 su2) ∧
      (∀ code2, ¬ code2.length < 4 → ¬ code2.length > 6 →
        code2.toList.all Char.isDigit = true →
        users'.find? (fun u => u.code == some code2 && u.isActive) = none →
        activate users' now T code2 = .notFound) := by
  have hcne : code ≠ "" := fun h => hlen4 (by rw [h]; decide)
  have g1 : (T == "" || code == "") = false := by
    simp [hT, hcne]
  have g2 : (decide (code.length < 4) || decide (code.length > 6)
      || !(code.toList.all Char.isDigit)) = false := by
    rw [Bool.or_eq_false_iff, Bool.or_eq_false_iff]
    exact ⟨⟨decide_eq_false hlen4, decide_eq_false hlen6⟩, by rw [hdig]; rfl⟩
  obtain ⟨l₁, l₂, hsplit, h₁, h₂⟩ := exists_split_of_nodup_key
    (fun u : User => u.id) users u0 hnodup (List.mem_of_find?_eq_some hfind)
  have hsf : setFirst (fun u => u.id == u0.id) (activateUpdate code) users =
      l₁ ++ activateUpdate code u0 :: l₂ := by
    rw [hsplit]
    exact setFirst_append_cons _ _ _ _ _
      (fun b hb => beq_eq_false_iff_ne.mpr (h₁ b hb)) (beq_iff_eq.mpr rfl)
  have hf2 : (setFirst (fun u => u.id == u0.id)
        (activateUpdate code) users).find? (fun u => u.id == u0.id) =
      some (activateUpdate code u0) := by
    rw [hsf]
    exact find?_append_cons _ _ _ _
      (fun b hb => beq_eq_false_iff_ne.mpr (h₁ b hb)) (beq_iff_eq.mpr rfl)
  have hok : activate users now T code = .ok
      (setFirst (fun u => u.id == u0.id) (activateUpdate code) users)
      (redactUser (activateUpdate code u0)) := by
    rw [activate]
    simp only [g1, g2, Bool.false_eq_true, if_false, hfree, Option.isSome_none,
      hfind, hexp, hf2]
  have hfind_none : (setFirst (fun u => u.id == u0.id)
        (activateUpdate code) users).find?
      (fun u => u.inviteToken == some T && !u.isActive) = none := by
    apply List.find?_eq_none.mpr
    intro u hu
    rw [hsf] at hu
    rcases List.mem_append.mp hu with hu | hu
    · have humem : u ∈ users := hsplit ▸ List.mem_append.mpr (Or.inl hu)
      have htok : u.inviteToken ≠ some T :=
        fun htok => h₁ u hu (huniq u humem htok)
      intro hp
      rw [Bool.and_eq_true] at hp
      exact htok (beq_iff_eq.mp hp.1)
    · rcases List.mem_cons.mp hu with h | hu
      · subst h
        intro hp
        rw [Bool.and_eq_true] at hp
        exact Option.noConfusion (beq_iff_eq.mp hp.1)
      · have humem : u ∈ users :=
          hsplit ▸ List.mem_append.mpr (Or.inr (List.mem_cons_of_mem _ hu))
        have htok : u.inviteToken ≠ some T :=
          fun htok => h₂ u hu (huniq u humem htok)
        intro hp
        rw [Bool.and_eq_true] at hp
        exact htok (beq_iff_eq.mp hp.1)
  refine ⟨_, _, hok, rfl, rfl, rfl, ?_, ?_, ?_, ?_⟩
  · refine ⟨activateUpdate code u0, ?_, rfl, rfl, rfl, rfl, rfl⟩
    rw [hsf]
    exact List.mem_append.mpr (Or.inr (List.mem_cons_self _ _))
  · intro u hu hne
    rw [hsf]
    rw [hsplit] at hu
    rcases List.mem_append.mp hu with hu | hu
    · exact List.mem_append.mpr (Or.inl hu)
    · rcases List.mem_cons.mp hu with h | hu
      · exact absurd (h ▸ rfl) hne
      · exact List.mem_append.mpr (Or.inr (List.mem_cons_of_mem _ hu))
  · intro code2 us2 su2 hcontra
    obtain ⟨v0, -, hvfind, -, -, -⟩ :=
      activate_ok_inversion _ now T code2 us2 su2 hcontra
    rw [hfind_none] at hvfind
    exact Option.noConfusion hvfind
  · intro code2 k4 k6 kd kfree
    have hcne2 : code2 ≠ "" := fun h => k4 (by rw [h]; decide)
    have g1' : (T == "" || code2 == "") = false := by
      simp [hT, hcne2]
    have g2' : (decide (code2.length < 4) || decide (code2.length > 6)
        || !(code2.toList.all Char.isDigit)) = false := by
      rw [Bool.or_eq_false_iff, Bool.or_eq_false_iff]
      exact ⟨⟨decide_eq_false k4, decide_eq_false k6⟩, by rw [kd]; rfl⟩
    rw [activate]
    simp only [g1', g2', Bool.false_eq_true, if_false, kfree,
      Option.isSome_none, hfind_none]

/-- An inactive invited user for the C6 examples. -/
def inviteUser : User :=
  { id := "u9", name := some "Dana", code := none, isAdmin := false,
    isActive := false, inviteToken := some "tok9", inviteExpires := some 100 }

/-- Witness for the amended C6 theorem at a concrete store. -/
theorem C6_witness :
    ∃ users' su, activate [inviteUser] 50 "tok9" "1234" = .ok users' su ∧
      su.isActive = true ∧ su.inviteToken = none ∧ su.inviteExpires = none ∧
      (∃ u1 ∈ users', u1.id = inviteUser.id ∧ u1.code = some "1234" ∧
        u1.isActive = true ∧ u1.inviteToken = none ∧ u1.inviteExpires = none) ∧
      (∀ u ∈ [inviteUser], u.id ≠ inviteUser.id → u ∈ users') ∧
      (∀ code2 us2 su2, activate users' 50 "tok9" code2 ≠ .ok us2 su2) ∧
      (∀ code2, ¬ code2.length < 4 → ¬ code2.length > 6 →
        code2.toList.all Char.isDigit = true →
        users'.find? (fun u => u.code == some code2 && u.isActive) = none →
        activate users' 50 "tok9" code2 = .notFound) :=
  C6_activate_single_use [inviteUser] 50 "tok9" "1234" inviteUser
    (by decide) (by decide) (by decide) (by decide) (by decide) (by decide)
    (by decide) (by decide) (by decide)

/-- C6 counterexample: the claim "any second call activate(T, code')
fails with NotFound, regardless of code'" is false.  Re-activating with
the same (now claimed) code hits the code-uniqueness guard first and
answers Conflict ("Этот код уже занят"), not NotFound. -/
theorem C6_counterexample :
    ∃ us1 su, activate [inviteUser] 50 "tok9" "1234" = .ok us1 su ∧
      activate us1 50 "tok9" "1234" = .codeTaken ∧
      activate us1 50 "tok9" "1234" ≠ .notFound := by
  refine ⟨[activateUpdate "1234" inviteUser],
    redactUser (activateUpdate "1234" inviteUser), ?_, ?_, ?_⟩
  · decide
  · decide
  · decide

/-! ### C7: partial updates -/

/-- Behaviour of `updateOne` + re-read (`findOne`) keyed on a field that is
unique in the list and preserved by the update. -/
lemma putByKey_spec (key : α → String) (f : α → α)
    (hkey : ∀ a, key (f a) = key a)
    (l : List α) (id : String) (hnodup : (l.map key).Nodup) :
    (∀ a0 ∈ l, key a0 = id →
      (setFirst (fun a => key a == id) f l).find? (fun a => key a == id) =
        some (f a0) ∧
      f a0 ∈ setFirst (fun a => key a == id) f l ∧
      (∀ b ∈ l, key b ≠ id → b ∈ setFirst (fun a => key a == id) f l) ∧
      (∀ b ∈ setFirst (fun a => key a == id) f l, b ∈ l ∨ b = f a0)) ∧
    ((∀ a ∈ l, key a ≠ id) →
      setFirst (fun a => key a == id) f l = l ∧
      l.find? (fun a => key a == id) = none) := by
  constructor
  · intro a0 ha0 hid
    obtain ⟨l₁, l₂, rfl, h₁, h₂⟩ :=
      exists_split_of_nodup_key key l a0 hnodup ha0
    have hp1 : ∀ b ∈ l₁, (key b == id) = false :=
      fun b hb => beq_eq_false_iff_ne.mpr fun h => h₁ b hb (h.trans hid.symm)
    have hpa : (key a0 == id) = true := beq_iff_eq.mpr hid
    have hsf := setFirst_append_cons (fun a => key a == id) f l₁ l₂ a0 hp1 hpa
    refine ⟨?_, ?_, ?_, ?_⟩
    · rw [hsf]
      exact find?_append_cons _ _ _ _ hp1 (beq_iff_eq.mpr ((hkey a0).trans hid))
    · rw [hsf]
      exact List.mem_append.mpr (Or.inr (List.mem_cons_self _ _))
    · intro b hb hbne
      rw [hsf]
      rcases List.mem_append.mp hb with hb | hb
      · exact List.mem_append.mpr (Or.inl hb)
      · rcases List.mem_cons.mp hb with h | hb
        · exact absurd (show key b = id by rw [h]; exact hid) hbne
        · exact List.mem_append.mpr (Or.inr (List.mem_cons_of_mem _ hb))
    · intro b hb
      rw [hsf] at hb
      rcases List.mem_append.mp hb with hb | hb
      · exact Or.inl (List.mem_append.mpr (Or.inl hb))
      · rcases List.mem_cons.mp hb with h | hb
        · exact Or.inr h
        · exact Or.inl (List.mem_append.mpr
            (Or.inr (List.mem_cons_of_mem _ hb)))
  · intro hnone
    refine ⟨setFirst_of_forall_not _ _ _
      (fun a ha => beq_eq_false_iff_ne.mpr (hnone a ha)), ?_⟩
    exact List.find?_eq_none.mpr fun x hx hpx => hnone x hx (beq_iff_eq.mp hpx)

/-- Item and container patches for the C7 examples: rename, and clear the
item's container by an explicit null. -/
def px7 : ItemPatch :=
  { name := some (some "sledgehammer"), quantity := none, minQuantity := none,
    category := none, photo := none, container := some none }

def pc7 : ContainerPatch :=
  { name := some (some "renamed"), number := none, photo := none,
    parent := none }

/-- C7 counterexample: the claim "fails with NotFound when no record with
that id exists" is false.  On a store with no matching record, both PUT
handlers leave the store unchanged and answer 200 with a null body (the
re-read `findOne` result), raising no NotFound failure. -/
theorem C7_counterexample :
    putItem [] "i0" px7 = ([], none) ∧
      putContainer [] "c0" pc7 = ([], none) :=
  ⟨rfl, rfl⟩

/-- C7 amended: PUT /items/:id and PUT /containers/:id apply exactly the
keys explicitly present in the body (an absent key leaves the field
unchanged; a key present with value null clears the field), never touch
`id`/`created` (or a container's `ownerId`), leave every other record
unchanged, and return the new full record when the id exists; when no
record has the id they leave the store unchanged and return null (an
HTTP-200 empty result, not a NotFound failure). -/
theorem C7_put_partial_update
    (items : List Item) (cs : List Container) (id : String)
    (ip : ItemPatch) (cp : ContainerPatch)
    (hni : (items.map (·.id)).Nodup) (hnc : (cs.map (·.id)).Nodup) :
    (∀ i : Item,
      (applyItemPatch ip i).id = i.id ∧
      (applyItemPatch ip i).created = i.created ∧
      (ip.name = none → (applyItemPatch ip i).name = i.name) ∧
      (∀ v, ip.name = some v → (applyItemPatch ip i).name = v) ∧
      (ip.quantity = none → (applyItemPatch ip i).quantity = i.quantity) ∧
      (∀ v, ip.quantity = some v → (applyItemPatch ip i).quantity = v) ∧
      (ip.minQuantity = none →
        (applyItemPatch ip i).minQuantity = i.minQuantity) ∧
      (∀ v, ip.minQuantity = some v → (applyItemPatch ip i).minQuantity = v) ∧
      (ip.category = none → (applyItemPatch ip i).category = i.category) ∧
      (∀ v, ip.category = some v → (applyItemPatch ip i).category = v) ∧
      (ip.photo = none → (applyItemPatch ip i).photo = i.photo) ∧
      (∀ v, ip.photo = some v → (applyItemPatch ip i).photo = v) ∧
      (ip.container = none → (applyItemPatch ip i).container = i.container) ∧
      (∀ v, ip.container = some v → (applyItemPatch ip i).container = v)) ∧
    (∀ c : Container,
      (applyContainerPatch cp c).id = c.id ∧
      (applyContainerPatch cp c).created = c.created ∧
      (applyContainerPatch cp c).ownerId = c.ownerId ∧
      (cp.name = none → (applyContainerPatch cp c).name = c.name) ∧
      (∀ v, cp.name = some v → (applyContainerPatch cp c).name = v) ∧
      (cp.number = none → (applyContainerPatch cp c).number = c.number) ∧
      (∀ v, cp.number = some v → (applyContainerPatch cp c).number = v) ∧
      (cp.photo = none → (applyContainerPatch cp c).photo = c.photo) ∧
      (∀ v, cp.photo = some v → (applyContainerPatch cp c).photo = v) ∧
      (cp.parent = none → (applyContainerPatch cp c).parent = c.parent) ∧
      (∀ v, cp.parent = some v → (applyContainerPatch cp c).parent = v)) ∧
    (∀ i0 ∈ items, i0.id = id →
      (putItem items id ip).2 = some (applyItemPatch ip i0) ∧
      applyItemPatch ip i0 ∈ (putItem items id ip).1 ∧
      (∀ j ∈ items, j.id ≠ id → j ∈ (putItem items id ip).1) ∧
      (∀ j ∈ (putItem items id ip).1, j ∈ items ∨ j = applyItemPatch ip i0)) ∧
    ((∀ i ∈ items, i.id ≠ id) → putItem items id ip = (items, none)) ∧
    (∀ c0 ∈ cs, c0.id = id →
      (putContainer cs id cp).2 = some (applyContainerPatch cp c0) ∧
      applyContainerPatch cp c0 ∈ (putContainer cs id cp).1 ∧
      (∀ c ∈ cs, c.id ≠ id → c ∈ (putContainer cs id cp).1) ∧
      (∀ c ∈ (putContainer cs id cp).1,
        c ∈ cs ∨ c = applyContainerPatch cp c0)) ∧
    ((∀ c ∈ cs, c.id ≠ id) → putContainer cs id cp = (cs, none)) := by
  obtain ⟨ifound, imiss⟩ :=
    putByKey_spec Item.id (applyItemPatch ip) (fun _ => rfl) items id hni
  obtain ⟨cfound, cmiss⟩ :=
    putByKey_spec Container.id (applyContainerPatch cp) (fun _ => rfl)
      cs id hnc
  refine ⟨?_, ?_, ?_, ?_, ?_, ?_⟩
  · intro i
    refine ⟨rfl, rfl, fun h => by simp [applyItemPatch, h],
      fun v h => by simp [applyItemPatch, h],
      fun h => by simp [applyItemPatch, h],
      fun v h => by simp [applyItemPatch, h],
      fun h => by simp [applyItemPatch, h],
      fun v h => by simp [applyItemPatch, h],
      fun h => by simp [applyItemPatch, h],
      fun v h => by simp [applyItemPatch, h],
      fun h => by simp [applyItemPatch, h],
      fun v h => by simp [applyItemPatch, h],
      fun h => by simp [applyItemPatch, h],
      fun v h => by simp [applyItemPatch, h]⟩
  · intro c
    refine ⟨rfl, rfl, rfl, fun h => by simp [applyContainerPatch, h],
      fun v h => by simp [applyContainerPatch, h],
      fun h => by simp [applyContainerPatch, h],
      fun v h => by simp [applyContainerPatch, h],
      fun h => by simp [applyContainerPatch, h],
      fun v h => by simp [applyContainerPatch, h],
      fun h => by simp [applyContainerPatch, h],
      fun v h => by simp [applyContainerPatch, h]⟩
  · intro i0 hi0 hid
    exact ifound i0 hi0 hid
  · intro hnone
    obtain ⟨m1, m2⟩ := imiss hnone
    have hpair : putItem items id ip =
        (setFirst (fun i => i.id == id) (applyItemPatch ip) items,
          (setFirst (fun i => i.id == id) (applyItemPatch ip) items).find?
            (fun i => i.id == id)) := rfl
    rw [hpair, m1, m2]
  · intro c0 hc0 hid
    exact cfound c0 hc0 hid
  · intro hnone
    obtain ⟨m1, m2⟩ := cmiss hnone
    have hpair : putContainer cs id cp =
        (setFirst (fun c => c.id == id) (applyContainerPatch cp) cs,
          (setFirst (fun c => c.id == id) (applyContainerPatch cp) cs).find?
            (fun c => c.id == id)) := rfl
    rw [hpair, m1, m2]

/-- An item for the C7 witness. -/
def wItem7 : Item :=
  { id := "i7", name := some "hammer", quantity := some 2,
    minQuantity := some 0, category := none, photo := none,
    container := some "c1", created := "t" }

/-- Witness for the amended C7 theorem: the found case on a concrete
one-item store. -/
theorem C7_witness :
    (putItem [wItem7] "i7" px7).2 = some (applyItemPatch px7 wItem7) ∧
    applyItemPatch px7 wItem7 ∈ (putItem [wItem7] "i7" px7).1 ∧
    (∀ j ∈ [wItem7], j.id ≠ "i7" → j ∈ (putItem [wItem7] "i7" px7).1) ∧
    (∀ j ∈ (putItem [wItem7] "i7" px7).1,
      j ∈ [wItem7] ∨ j = applyItemPatch px7 wItem7) :=
  (C7_put_partial_update [wItem7] [] "i7" px7 pc7
    (by decide) (by decide)).2.2.1 wItem7 (List.mem_cons_self _ _) rfl

/-! ### C8: redaction of the code field -/

/-- C8: every code path that returns a User record to a caller — login,
activate, user listing, user creation — returns it through `redactUser`,
whose result type `SafeUser` has no `code` field; and `redactUser` is
insensitive to the `code` field, so no choice of stored code can leak
through the returned object. -/
theorem C8_user_outputs_redacted :
    (∀ (users : List User) (code : String) (su : SafeUser),
      login users code = .ok su → ∃ u ∈ users, su = redactUser u) ∧
    (∀ (users us2 : List User) (now : Nat) (T c : String) (su : SafeUser),
      activate users now T c = .ok us2 su → ∃ u ∈ us2, su = redactUser u) ∧
    (∀ users : List User, getUsers users = users.map redactUser) ∧
    (∀ (users us2 : List User) (name : Option String) (isAdmin : Bool)
        (newId tok : String) (exp : Nat) (su : SafeUser) (tok2 : String),
      createUser users name isAdmin newId tok exp = .ok us2 su tok2 →
      ∃ u ∈ us2, su = redactUser u) ∧
    (∀ (u : User) (c : Option String),
      redactUser { u with code := c } = redactUser u) := by
  refine ⟨?_, ?_, fun _ => rfl, ?_, fun _ _ => rfl⟩
  · intro users code su h
    rw [login] at h
    split at h
    · exact LoginResult.noConfusion h
    split at h
    · exact LoginResult.noConfusion h
    next u heq =>
      exact ⟨u, List.mem_of_find?_eq_some heq, (LoginResult.ok.inj h).symm⟩
  · intro users us2 now T c su h
    obtain ⟨u0, updated, -, -, hmem, hsu⟩ :=
      activate_ok_inversion users now T c us2 su h
    exact ⟨updated, hmem, hsu⟩
  · intro users us2 name isAdmin newId tok exp su tok2 h
    rw [createUser] at h
    split at h
    · exact CreateUserResult.noConfusion h
    next n heq =>
      obtain ⟨h1, h2, -⟩ := CreateUserResult.ok.inj h
      refine ⟨_, ?_, h2.symm⟩
      rw [← h1]
      exact List.mem_append.mpr (Or.inr (List.mem_cons_self _ _))

/-- An active admin user for the C8 witness. -/
def wUser8 : User :=
  { id := "ua", name := some "Root", code := some "0000", isAdmin := true,
    isActive := true, inviteToken := none, inviteExpires := none }

/-- Witness for C8: a successful concrete login output is the redaction of
a stored user. -/
theorem C8_witness :
    ∃ u ∈ [wUser8], redactUser wUser8 = redactUser u :=
  C8_user_outputs_redacted.1 [wUser8] "0000" (redactUser wUser8) (by decide)

/-! ### C9: ownership is fixed at creation -/

/-- C9: a container's ownerId is set at creation — to the parent
container's owner when a parent id naming an existing container with a
(non-empty) owner is given, to the creating user otherwise — and no later
operation rewrites it: creation leaves existing containers untouched,
update (PUT) preserves every container's id and ownerId, and deletion only
removes containers. -/
theorem C9_ownerId_fixed
    (cs : List Container) (requesterId newId created : String)
    (body : ContainerBody) :
    (∀ p pc o, body.parent = some p → p ≠ "" →
      cs.find? (fun c => c.id == p) = some pc → pc.ownerId = some o →
      o ≠ "" →
      (createContainer cs requesterId newId body created).2.ownerId =
        some o) ∧
    (body.parent = none →
      (createContainer cs requesterId newId body created).2.ownerId =
        some requesterId) ∧
    (∀ c ∈ cs, c ∈ (createContainer cs requesterId newId body created).1) ∧
    (∀ (id : String) (patch : ContainerPatch),
      ∀ c ∈ (putContainer cs id patch).1,
        ∃ c0 ∈ cs, c.id = c0.id ∧ c.ownerId = c0.ownerId) ∧
    (∀ (st : State) (id : String),
      ∀ c ∈ (deleteContainer st id).1.containers, c ∈ st.containers) := by
  refine ⟨?_, ?_, ?_, ?_, ?_⟩
  · intro p pc o hp hpne hfind ho hone
    show some (match presentString body.parent with
      | some q =>
        match cs.find? (fun c => c.id == q) with
        | some parentContainer => stringOrElse parentContainer.ownerId
            requesterId
        | none => requesterId
      | none => requesterId) = some o
    rw [hp]
    simp only [presentString, if_neg hpne]
    rw [hfind]
    simp only [stringOrElse, ho, if_neg hone]
  · intro hp
    show some (match presentString body.parent with
      | some q =>
        match cs.find? (fun c => c.id == q) with
        | some parentContainer => stringOrElse parentContainer.ownerId
            requesterId
        | none => requesterId
      | none => requesterId) = some requesterId
    rw [hp]
    rfl
  · intro c hc
    exact List.mem_append.mpr (Or.inl hc)
  · intro id patch c hc
    rcases mem_setFirst _ _ _ _ hc with hc | ⟨a, ha, -, rfl⟩
    · exact ⟨c, hc, rfl, rfl⟩
    · exact ⟨a, ha, rfl, rfl⟩
  · intro st id c hc
    rw [deleteContainer] at hc
    split at hc
    · exact hc
    split at hc
    · exact hc
    · exact (List.eraseP_sublist _).subset hc

/-- A creation body attaching under bob's container, for the C9 witness. -/
def cb9 : ContainerBody :=
  { name := some "crate", number := none, photo := none, parent := some "c1" }

/-- Witness for C9: creating under `c1` (owned by bob) inherits bob's
ownership. -/
theorem C9_witness :
    (createContainer [bobContainer] "u1" "c5" cb9 "t").2.ownerId =
      some "bob" :=
  (C9_ownerId_fixed [bobContainer] "u1" "c5" "t" cb9).1 "c1" bobContainer
    "bob" rfl (by decide) (by decide) rfl (by decide)

/-! ### C10: GET /items is not access-filtered -/

/-- An admin-owned container with an item, invisible to bob via sync. -/
def adminC : Container :=
  { id := "ca", name := some "vault", number := none, photo := none,
    parent := none, ownerId := some "u_admin", created := "t" }

def adminItem : Item :=
  { id := "ia", name := some "gold", quantity := some 1, minQuantity := some 0,
    category := none, photo := none, container := some "ca", created := "t" }

def st10 : State :=
  { users := [bobUser], containers := [adminC], items := [adminItem],
    categories := [], containerAccess := [] }

/-- C10: GET /items returns every stored item for any authenticated caller
— the handler never consults the caller or the accessible-container set —
so a non-admin receives items (here `adminItem`) that sync hides from
them. -/
theorem C10_getItems_unfiltered :
    (∀ (st : State) (u : User), getItems st u = st.items) ∧
    (∃ r, sync st10 bobUser 1 = some r ∧
      adminItem ∈ getItems st10 bobUser ∧ adminItem ∉ r.items) :=
  ⟨fun _ _ => rfl,
    ⟨{ containers := [], items := [], categories := [] },
      by decide, by decide, by decide⟩⟩

end Skladito
